import Mathlib

/-!
Verification of the BigInt arithmetic engine in src/BigInt/main.cpp.

The C++ class stores an arbitrary-precision integer as
  - `sections : std::vector<uint32_t>`, least-significant limb first, and
  - `sign : bool`, true meaning negative.

We embed limb vectors as `List Nat` (least-significant first) together with
the invariant `validLimbs` saying every limb fits in 32 bits, and the pair
as the structure `BigIntM`.  All double-width (uint64_t) intermediate
arithmetic is carried out on `Nat`; the 32-bit stores of the C++ code are
rendered as explicit `% 2 ^ 32` / `/ 2 ^ 32` operations (`splitLow`,
`splitHigh`), matching the masks and shifts of `storage::storeIntParts`.
Out-of-bounds vector accesses and C++ undefined behaviour are modelled by
`Option`, with `none` meaning the run is erroneous.
-/

/-- storage::STORAGE_BITS = 32. -/
def storageBits : Nat := 32

/-- One more than the largest limb value: 2 ^ 32.  A limb (uint32_t) is a `Nat` below `limbBase`. -/
def limbBase : Nat := 2 ^ storageBits

/-- storage::fromIntParts: `((bigInt_t)high << STORAGE_BITS) | (bigInt_t)low` on uint64_t.
Both arguments are uint32_t, so `low` occupies only the masked-out low bits and the
bit-or is exactly `high * 2^32 + low`. -/
def fromIntParts (high low : Nat) : Nat := high * limbBase + low

/-- The high half written by storage::storeIntParts:
`(smallInt_t)((v & HIGH_BITMASK) >> STORAGE_BITS)`, i.e. bits 32..63 of `v`,
which is `v / 2^32 % 2^32`. -/
def splitHigh (v : Nat) : Nat := v / limbBase % limbBase

/-- The low half written by storage::storeIntParts: `(smallInt_t)(v & LOW_BITMASK) = v % 2^32`. -/
def splitLow (v : Nat) : Nat := v % limbBase

/-- The numeric value denoted by a limb list (the `sections` vector), least-significant first. -/
def limbsVal : List Nat → Nat
  | [] => 0
  | x :: xs => x + limbBase * limbsVal xs

/-- Class invariant inherited from the C++ types: every limb fits in a uint32_t. -/
def validLimbs (s : List Nat) : Prop := ∀ x ∈ s, x < limbBase

instance (s : List Nat) : Decidable (validLimbs s) :=
  inferInstanceAs (Decidable (∀ x ∈ s, x < limbBase))

/-- A BigInt: the `sections` limb vector plus the `sign` flag (`true` = negative). -/
structure BigIntM where
  sections : List Nat
  sign : Bool
deriving DecidableEq, Repr

/- ### Basic facts about `limbsVal` -/

theorem limbBase_pos : 0 < limbBase := by
  unfold limbBase storageBits; positivity

theorem two_le_limbBase : 2 ≤ limbBase := by
  unfold limbBase storageBits; norm_num

theorem limbsVal_nil : limbsVal [] = 0 := rfl

theorem limbsVal_cons (x : Nat) (xs : List Nat) :
    limbsVal (x :: xs) = x + limbBase * limbsVal xs := rfl

theorem limbsVal_append (l m : List Nat) :
    limbsVal (l ++ m) = limbsVal l + limbBase ^ l.length * limbsVal m := by
  induction l with
  | nil => simp [limbsVal]
  | cons x xs ih =>
    simp only [List.cons_append, limbsVal_cons, ih, List.length_cons, pow_succ]
    ring

theorem limbsVal_lt (s : List Nat) (hs : validLimbs s) :
    limbsVal s < limbBase ^ s.length := by
  induction s with
  | nil => simp [limbsVal]
  | cons x xs ih =>
    have hx : x < limbBase := hs x (List.mem_cons_self x xs)
    have hxs : limbsVal xs < limbBase ^ xs.length :=
      ih (fun y hy => hs y (List.mem_cons_of_mem x hy))
    have h1 : limbsVal xs + 1 ≤ limbBase ^ xs.length := hxs
    calc x + limbBase * limbsVal xs
        < limbBase + limbBase * limbsVal xs := Nat.add_lt_add_right hx _
      _ = limbBase * (limbsVal xs + 1) := by ring
      _ ≤ limbBase * limbBase ^ xs.length := Nat.mul_le_mul_left _ h1
      _ = limbBase ^ (x :: xs).length := by rw [List.length_cons, pow_succ]; ring

theorem limbsVal_eq_zero_iff (s : List Nat) :
    limbsVal s = 0 ↔ ∀ x ∈ s, x = 0 := by
  induction s with
  | nil => simp [limbsVal]
  | cons x xs ih =>
    have hB := limbBase_pos
    constructor
    · intro h
      rw [limbsVal_cons] at h
      have hx : x = 0 ∧ limbBase * limbsVal xs = 0 := by omega
      have hxs : limbsVal xs = 0 := by
        rcases Nat.mul_eq_zero.mp hx.2 with h' | h'
        · omega
        · exact h'
      intro y hy
      rcases List.mem_cons.mp hy with rfl | hy
      · exact hx.1
      · exact (ih.mp hxs) y hy
    · intro h
      have hx : x = 0 := h x (List.mem_cons_self x xs)
      have hxs : limbsVal xs = 0 := ih.mpr (fun y hy => h y (List.mem_cons_of_mem x hy))
      simp [limbsVal_cons, hx, hxs]

/-- Value of a list after setting one in-range position. -/
theorem limbsVal_set (l : List Nat) (k v : Nat) (hk : k < l.length) :
    limbsVal (l.set k v) + l[k] * limbBase ^ k = limbsVal l + v * limbBase ^ k := by
  induction l generalizing k with
  | nil => simp at hk
  | cons x xs ih =>
    cases k with
    | zero => simp [limbsVal_cons]; ring
    | succ k =>
      have hk' : k < xs.length := by simpa using hk
      have := ih k hk'
      simp only [List.set_cons_succ, limbsVal_cons, List.getElem_cons_succ, pow_succ]
      calc x + limbBase * limbsVal (xs.set k v) + xs[k] * (limbBase ^ k * limbBase)
          = x + limbBase * (limbsVal (xs.set k v) + xs[k] * limbBase ^ k) := by ring
        _ = x + limbBase * (limbsVal xs + v * limbBase ^ k) := by rw [this]
        _ = x + limbBase * limbsVal xs + v * (limbBase ^ k * limbBase) := by ring

theorem validLimbs_set (l : List Nat) (k v : Nat) (hl : validLimbs l) (hv : v < limbBase) :
    validLimbs (l.set k v) := by
  intro x hx
  rcases List.mem_or_eq_of_mem_set hx with h | rfl
  · exact hl x h
  · exact hv

theorem limbsVal_replicate_zero (n : Nat) : limbsVal (List.replicate n 0) = 0 := by
  induction n with
  | zero => rfl
  | succ n ih => simp [List.replicate_succ, limbsVal_cons, ih]

/- ### multiplyAdd -/

/-- The loop of BigInt::multiplyAdd: for each limb from least significant,
`r = sections[i] * base + carry` in uint64_t, then `storeIntParts(r, carry, sections[i])`.
Returns the rewritten limbs together with the final carry. -/
def mulAddGo : List Nat → Nat → Nat → List Nat × Nat
  | [], _, c => ([], c)
  | x :: xs, base, c =>
    let r := x * base + c
    let rest := mulAddGo xs base (splitHigh r)
    (splitLow r :: rest.1, rest.2)

/-- BigInt::multiplyAdd: runs the loop, then
`if (carry || !sections.size()) sections.push_back(carry)`. -/
def multiplyAdd (s : List Nat) (base c : Nat) : List Nat :=
  let p := mulAddGo s base c
  if p.2 ≠ 0 ∨ p.1 = [] then p.1 ++ [p.2] else p.1

theorem mulAddGo_length (s : List Nat) (base c : Nat) :
    (mulAddGo s base c).1.length = s.length := by
  induction s generalizing c with
  | nil => rfl
  | cons x xs ih => simp [mulAddGo, ih]

theorem mulAddGo_fst_eq_nil_iff (s : List Nat) (base c : Nat) :
    (mulAddGo s base c).1 = [] ↔ s = [] := by
  cases s <;> simp [mulAddGo]

theorem mulAddGo_valid (s : List Nat) (base c : Nat) (hc : c < limbBase) :
    validLimbs (mulAddGo s base c).1 ∧ (mulAddGo s base c).2 < limbBase := by
  induction s generalizing c with
  | nil => exact ⟨fun x hx => by simp [mulAddGo] at hx, hc⟩
  | cons x xs ih =>
    have hhi : splitHigh (x * base + c) < limbBase := Nat.mod_lt _ limbBase_pos
    have hlo : splitLow (x * base + c) < limbBase := Nat.mod_lt _ limbBase_pos
    obtain ⟨h1, h2⟩ := ih (splitHigh (x * base + c)) hhi
    refine ⟨?_, by simpa [mulAddGo] using h2⟩
    intro y hy
    simp only [mulAddGo, List.mem_cons] at hy
    rcases hy with rfl | hy
    · exact hlo
    · exact h1 y hy

/-- Value law for the multiplyAdd loop: limbs plus carry shifted past the end
reconstruct `old value * base + carry-in`. -/
theorem mulAddGo_val (s : List Nat) (base c : Nat)
    (hs : validLimbs s) (hb : base < limbBase) (hc : c < limbBase) :
    limbsVal (mulAddGo s base c).1 + (mulAddGo s base c).2 * limbBase ^ s.length =
      limbsVal s * base + c := by
  induction s generalizing c with
  | nil => simp [mulAddGo, limbsVal]
  | cons x xs ih =>
    have hx : x < limbBase := hs x (List.mem_cons_self x xs)
    have hxs : validLimbs xs := fun y hy => hs y (List.mem_cons_of_mem x hy)
    have hr : x * base + c < limbBase * limbBase := by
      have h1 : x * base ≤ (limbBase - 1) * (limbBase - 1) :=
        Nat.mul_le_mul (by omega) (by omega)
      have hB := two_le_limbBase
      nlinarith
    have hsplit : splitLow (x * base + c) + limbBase * splitHigh (x * base + c) =
        x * base + c := by
      unfold splitLow splitHigh
      have hdiv : (x * base + c) / limbBase < limbBase := Nat.div_lt_of_lt_mul hr
      rw [Nat.mod_eq_of_lt hdiv]
      have := Nat.div_add_mod (x * base + c) limbBase
      omega
    have hhi : splitHigh (x * base + c) < limbBase := Nat.mod_lt _ limbBase_pos
    have ihx := ih (splitHigh (x * base + c)) hxs hhi
    simp only [mulAddGo, limbsVal_cons, List.length_cons, pow_succ]
    calc splitLow (x * base + c) +
          limbBase * limbsVal (mulAddGo xs base (splitHigh (x * base + c))).1 +
          (mulAddGo xs base (splitHigh (x * base + c))).2 * (limbBase ^ xs.length * limbBase)
        = splitLow (x * base + c) + limbBase *
            (limbsVal (mulAddGo xs base (splitHigh (x * base + c))).1 +
             (mulAddGo xs base (splitHigh (x * base + c))).2 * limbBase ^ xs.length) := by ring
      _ = splitLow (x * base + c) + limbBase * (limbsVal xs * base + splitHigh (x * base + c)) := by
            rw [ihx]
      _ = (splitLow (x * base + c) + limbBase * splitHigh (x * base + c)) +
            limbBase * (limbsVal xs * base) := by ring
      _ = (x * base + c) + limbBase * (limbsVal xs * base) := by rw [hsplit]
      _ = (x + limbBase * limbsVal xs) * base + c := by ring

/-- Full value law for multiplyAdd: `self = self * base + addend`. -/
theorem multiplyAdd_val (s : List Nat) (base c : Nat)
    (hs : validLimbs s) (hb : base < limbBase) (hc : c < limbBase) :
    limbsVal (multiplyAdd s base c) = limbsVal s * base + c := by
  have hgo := mulAddGo_val s base c hs hb hc
  unfold multiplyAdd
  by_cases h : (mulAddGo s base c).2 ≠ 0 ∨ (mulAddGo s base c).1 = []
  · rw [if_pos h, limbsVal_append]
    simp only [limbsVal_cons, limbsVal_nil, mulAddGo_length, Nat.mul_zero, Nat.add_zero]
    rw [mul_comm (limbBase ^ s.length)]
    exact hgo
  · rw [if_neg h]
    push_neg at h
    rw [h.1] at hgo
    simpa using hgo

theorem multiplyAdd_ne_nil (s : List Nat) (base c : Nat) :
    multiplyAdd s base c ≠ [] := by
  unfold multiplyAdd
  by_cases h : (mulAddGo s base c).2 ≠ 0 ∨ (mulAddGo s base c).1 = []
  · rw [if_pos h]
    simp
  · rw [if_neg h]
    push_neg at h
    exact h.2

theorem multiplyAdd_valid (s : List Nat) (base c : Nat) (hc : c < limbBase) :
    validLimbs (multiplyAdd s base c) := by
  obtain ⟨h1, h2⟩ := mulAddGo_valid s base c hc
  unfold multiplyAdd
  by_cases h : (mulAddGo s base c).2 ≠ 0 ∨ (mulAddGo s base c).1 = []
  · rw [if_pos h]
    intro y hy
    rcases List.mem_append.mp hy with hy | hy
    · exact h1 y hy
    · simp at hy; omega
  · rw [if_neg h]
    exact h1

/-- The carry limb is appended exactly when the final carry is non-zero or the limb
list was empty: detected through the length of the result. -/
theorem multiplyAdd_length_iff (s : List Nat) (base c : Nat) :
    (multiplyAdd s base c).length = s.length + 1 ↔
      ((mulAddGo s base c).2 ≠ 0 ∨ s = []) := by
  unfold multiplyAdd
  by_cases h : (mulAddGo s base c).2 ≠ 0 ∨ (mulAddGo s base c).1 = []
  · rw [if_pos h]
    simp only [List.length_append, mulAddGo_length, List.length_cons, List.length_nil]
    rw [mulAddGo_fst_eq_nil_iff] at h
    simpa using h
  · rw [if_neg h]
    rw [mulAddGo_fst_eq_nil_iff] at h
    push_neg at h
    simp only [mulAddGo_length]
    constructor
    · intro him; exact absurd him (by omega)
    · intro hcon
      rcases hcon with h' | h'
      · exact absurd h.1 h'
      · exact absurd h' h.2

theorem multiplyAdd_nil_zero : multiplyAdd [] 10 0 = [0] := rfl

/- ### Trailing-zero stripping (the pop_back loop of BigInt::scalarDiv) -/

/-- The normalization loop `while (sections.size() > 0 && sections.back() == 0) sections.pop_back()`:
removes every trailing (most-significant) zero limb, possibly leaving the empty list. -/
def stripTrailingZeros : List Nat → List Nat
  | [] => []
  | x :: xs =>
    match stripTrailingZeros xs with
    | [] => if x = 0 then [] else [x]
    | r => x :: r

theorem stripTrailingZeros_eq_nil_iff (l : List Nat) :
    stripTrailingZeros l = [] ↔ ∀ x ∈ l, x = 0 := by
  induction l with
  | nil => simp [stripTrailingZeros]
  | cons x xs ih =>
    unfold stripTrailingZeros
    cases hr : stripTrailingZeros xs with
    | nil =>
      have hxs : ∀ y ∈ xs, y = 0 := ih.mp hr
      by_cases hx : x = 0
      · rw [if_pos hx]
        constructor
        · intro _ y hy
          rcases List.mem_cons.mp hy with rfl | hy
          · exact hx
          · exact hxs y hy
        · intro _; rfl
      · rw [if_neg hx]
        constructor
        · intro hcon; simp at hcon
        · intro hall; exact absurd (hall x (List.mem_cons_self x xs)) hx
    | cons y ys =>
      constructor
      · intro hcon; simp at hcon
      · intro hall
        have : stripTrailingZeros xs = [] :=
          ih.mpr (fun z hz => hall z (List.mem_cons_of_mem x hz))
        rw [this] at hr
        exact absurd hr (by simp)

theorem mem_stripTrailingZeros (l : List Nat) (x : Nat) (hx : x ∈ stripTrailingZeros l) :
    x ∈ l := by
  induction l with
  | nil => simp [stripTrailingZeros] at hx
  | cons y ys ih =>
    unfold stripTrailingZeros at hx
    cases hr : stripTrailingZeros ys with
    | nil =>
      rw [hr] at hx
      by_cases hy : y = 0
      · rw [if_pos hy] at hx; simp at hx
      · rw [if_neg hy] at hx
        simp only [List.mem_singleton] at hx
        exact hx ▸ List.mem_cons_self y ys
    | cons z zs =>
      rw [hr] at hx
      rcases List.mem_cons.mp hx with rfl | hx
      · exact List.mem_cons_self x ys
      · exact List.mem_cons_of_mem y (ih (hr ▸ hx))

theorem validLimbs_stripTrailingZeros (l : List Nat) (hl : validLimbs l) :
    validLimbs (stripTrailingZeros l) :=
  fun x hx => hl x (mem_stripTrailingZeros l x hx)

theorem limbsVal_stripTrailingZeros (l : List Nat) :
    limbsVal (stripTrailingZeros l) = limbsVal l := by
  induction l with
  | nil => rfl
  | cons x xs ih =>
    unfold stripTrailingZeros
    cases hr : stripTrailingZeros xs with
    | nil =>
      have hxs : limbsVal xs = 0 := by
        rw [limbsVal_eq_zero_iff]
        exact (stripTrailingZeros_eq_nil_iff xs).mp hr
      by_cases hx : x = 0
      · rw [if_pos hx]
        simp [limbsVal_cons, limbsVal_nil, hx, hxs]
      · rw [if_neg hx]
        simp [limbsVal_cons, limbsVal_nil, hxs]
    | cons z zs =>
      rw [hr] at ih
      simp [limbsVal_cons, ← ih]

theorem stripTrailingZeros_getLast (l : List Nat) :
    (stripTrailingZeros l).getLast? ≠ some 0 := by
  induction l with
  | nil => simp [stripTrailingZeros]
  | cons x xs ih =>
    unfold stripTrailingZeros
    cases hr : stripTrailingZeros xs with
    | nil =>
      by_cases hx : x = 0
      · rw [if_pos hx]; simp
      · rw [if_neg hx]; simpa using hx
    | cons z zs =>
      rw [hr] at ih
      rw [List.getLast?_cons_cons]
      exact ih

theorem stripTrailingZeros_length_le (l : List Nat) :
    (stripTrailingZeros l).length ≤ l.length := by
  induction l with
  | nil => simp [stripTrailingZeros]
  | cons x xs ih =>
    unfold stripTrailingZeros
    cases hr : stripTrailingZeros xs with
    | nil =>
      by_cases hx : x = 0
      · rw [if_pos hx]; simp
      · rw [if_neg hx]; simp
    | cons z zs =>
      rw [hr] at ih
      simpa using Nat.succ_le_succ ih

/-- A limb list without a trailing zero limb that denotes zero is empty. -/
theorem eq_nil_of_getLast_of_val_zero (l : List Nat)
    (hn : l.getLast? ≠ some 0) (hv : limbsVal l = 0) : l = [] := by
  cases hl : l with
  | nil => rfl
  | cons x xs =>
    exfalso
    have hall := (limbsVal_eq_zero_iff l).mp hv
    have hmem : (x :: xs).getLast (by simp) ∈ (x :: xs) := List.getLast_mem _
    have hzero : (x :: xs).getLast (by simp) = 0 := hall _ (hl ▸ hmem)
    have : l.getLast? = some 0 := by
      rw [hl, List.getLast?_eq_getLast _ (by simp), hzero]
    exact hn this

/- ### Scalar division with remainder -/

/-- Most-significant-first value of a limb list: `valMSB l = limbsVal l.reverse`. -/
def valMSB : List Nat → Nat
  | [] => 0
  | x :: xs => x * limbBase ^ xs.length + valMSB xs

theorem limbsVal_reverse (l : List Nat) : limbsVal l.reverse = valMSB l := by
  induction l with
  | nil => rfl
  | cons x xs ih =>
    rw [List.reverse_cons, limbsVal_append, ih]
    simp [valMSB, limbsVal_cons, limbsVal_nil]
    ring

/-- The loop of BigInt::scalarDiv, processed most-significant limb first (the C++
code walks the vector from index `size-1` down to `0`): for each limb,
`n = fromIntParts(rem, limb)`, store `(smallInt_t)(n / d)` and `rem = n % d`.
The `% limbBase` renders the uint32_t truncation of the stored quotient limb. -/
def divGo (d : Nat) : List Nat → Nat → List Nat × Nat
  | [], rem => ([], rem)
  | x :: xs, rem =>
    let n := fromIntParts rem x
    let rest := divGo d xs (n % d)
    (n / d % limbBase :: rest.1, rest.2)

/-- BigInt::scalarDiv minus the divide-by-zero question: run the loop over the
reversed (most-significant-first) limbs, then strip trailing zero limbs. -/
def scalarDivRun (s : List Nat) (d : Nat) : List Nat × Nat :=
  let p := divGo d s.reverse 0
  (stripTrailingZeros p.1.reverse, p.2)

/-- BigInt::scalarDiv.  The C++ code performs `n / d` and `n % d` with no check;
with `d = 0` each executed division is undefined behaviour, modelled as `none`.
With an empty limb vector the loop body never runs, so even `d = 0` returns
normally. -/
def scalarDiv (s : List Nat) (d : Nat) : Option (List Nat × Nat) :=
  if d = 0 ∧ s ≠ [] then none else some (scalarDivRun s d)

theorem divGo_length (d : Nat) :
    ∀ (xs : List Nat) (rem : Nat), (divGo d xs rem).1.length = xs.length := by
  intro xs
  induction xs with
  | nil => intro rem; rfl
  | cons x xs ih => intro rem; simp [divGo, ih]

theorem divGo_spec (d : Nat) :
    ∀ (xs : List Nat) (rem : Nat), validLimbs xs → rem < d →
      (divGo d xs rem).1.length = xs.length ∧
      validLimbs (divGo d xs rem).1 ∧
      (divGo d xs rem).2 < d ∧
      d * valMSB (divGo d xs rem).1 + (divGo d xs rem).2 =
        rem * limbBase ^ xs.length + valMSB xs := by
  intro xs
  induction xs with
  | nil =>
    intro rem _ hrem
    refine ⟨rfl, fun x hx => by simp [divGo] at hx, hrem, ?_⟩
    simp [divGo, valMSB]
  | cons x xs ih =>
    intro rem hv hrem
    have hx : x < limbBase := hv x (List.mem_cons_self x xs)
    have hxs : validLimbs xs := fun y hy => hv y (List.mem_cons_of_mem x hy)
    set n := fromIntParts rem x with hn
    have hnlt : n < d * limbBase := by
      have h1 : rem * limbBase ≤ (d - 1) * limbBase := Nat.mul_le_mul_right _ (by omega)
      have : n = rem * limbBase + x := by rw [hn]; unfold fromIntParts; ring
      have hB := limbBase_pos
      nlinarith
    have hq : n / d < limbBase := Nat.div_lt_of_lt_mul hnlt
    have hqcast : n / d % limbBase = n / d := Nat.mod_eq_of_lt hq
    have hrem2 : n % d < d := Nat.mod_lt _ (by omega)
    obtain ⟨ihlen, ihvalid, ihrem, iheq⟩ := ih (n % d) hxs hrem2
    refine ⟨?_, ?_, ?_, ?_⟩
    · simp [divGo, ihlen]
    · intro y hy
      simp only [divGo, List.mem_cons] at hy
      rcases hy with rfl | hy
      · exact Nat.mod_lt _ limbBase_pos
      · exact ihvalid y hy
    · simpa [divGo] using ihrem
    · show d * valMSB (n / d % limbBase :: (divGo d xs (n % d)).1) + (divGo d xs (n % d)).2 = _
      rw [hqcast]
      have hlen : (divGo d xs (n % d)).1.length = xs.length := ihlen
      calc d * valMSB (n / d :: (divGo d xs (n % d)).1) + (divGo d xs (n % d)).2
          = d * (n / d) * limbBase ^ xs.length +
            (d * valMSB (divGo d xs (n % d)).1 + (divGo d xs (n % d)).2) := by
              simp only [valMSB, hlen]; ring
        _ = d * (n / d) * limbBase ^ xs.length +
            ((n % d) * limbBase ^ xs.length + valMSB xs) := by rw [iheq]
        _ = (d * (n / d) + n % d) * limbBase ^ xs.length + valMSB xs := by ring
        _ = n * limbBase ^ xs.length + valMSB xs := by rw [Nat.div_add_mod]
        _ = (rem * limbBase + x) * limbBase ^ xs.length + valMSB xs := by
              rw [hn]; unfold fromIntParts; ring_nf
        _ = rem * limbBase ^ (x :: xs).length + valMSB (x :: xs) := by
              simp only [valMSB, List.length_cons, pow_succ]; ring

/-- Unconditional upper bound on the quotient produced by the division loop
(used for the termination of the serialization loop). -/
theorem divGo_le (d : Nat) :
    ∀ (xs : List Nat) (rem : Nat),
      d * valMSB (divGo d xs rem).1 ≤ rem * limbBase ^ xs.length + valMSB xs := by
  intro xs
  induction xs with
  | nil => intro rem; simp [divGo, valMSB]
  | cons x xs ih =>
    intro rem
    have hlen : (divGo d xs (fromIntParts rem x % d)).1.length = xs.length :=
      divGo_length d xs _
    have ihx := ih (fromIntParts rem x % d)
    have hdm := Nat.div_add_mod (fromIntParts rem x) d
    show d * valMSB (fromIntParts rem x / d % limbBase ::
        (divGo d xs (fromIntParts rem x % d)).1) ≤ _
    calc d * valMSB (fromIntParts rem x / d % limbBase ::
            (divGo d xs (fromIntParts rem x % d)).1)
        = d * (fromIntParts rem x / d % limbBase) * limbBase ^ xs.length +
            d * valMSB (divGo d xs (fromIntParts rem x % d)).1 := by
          simp only [valMSB, hlen]; ring
      _ ≤ d * (fromIntParts rem x / d) * limbBase ^ xs.length +
            (fromIntParts rem x % d * limbBase ^ xs.length + valMSB xs) := by
          have h1 : d * (fromIntParts rem x / d % limbBase) ≤ d * (fromIntParts rem x / d) :=
            Nat.mul_le_mul_left _ (Nat.mod_le _ _)
          have h2 := Nat.mul_le_mul_right (limbBase ^ xs.length) h1
          omega
      _ = (d * (fromIntParts rem x / d) + fromIntParts rem x % d) *
            limbBase ^ xs.length + valMSB xs := by ring
      _ = fromIntParts rem x * limbBase ^ xs.length + valMSB xs := by rw [hdm]
      _ = rem * limbBase ^ (x :: xs).length + valMSB (x :: xs) := by
          unfold fromIntParts
          simp only [valMSB, List.length_cons, pow_succ]; ring

theorem divGo_valid (d : Nat) :
    ∀ (xs : List Nat) (rem : Nat), validLimbs (divGo d xs rem).1 := by
  intro xs
  induction xs with
  | nil => intro rem x hx; simp [divGo] at hx
  | cons x xs ih =>
    intro rem y hy
    simp only [divGo, List.mem_cons] at hy
    rcases hy with rfl | hy
    · exact Nat.mod_lt _ limbBase_pos
    · exact ih _ y hy

theorem validLimbs_reverse (s : List Nat) (hs : validLimbs s) : validLimbs s.reverse :=
  fun x hx => hs x (List.mem_reverse.mp hx)

/-- Quotient/remainder law of BigInt::scalarDiv for a valid dividend and non-zero divisor. -/
theorem scalarDivRun_spec (s : List Nat) (d : Nat) (hd : d ≠ 0) (hs : validLimbs s) :
    limbsVal (scalarDivRun s d).1 = limbsVal s / d ∧
    (scalarDivRun s d).2 = limbsVal s % d := by
  obtain ⟨hlen, hval, hrem, heq⟩ :=
    divGo_spec d s.reverse 0 (validLimbs_reverse s hs) (by omega)
  have hm : valMSB s.reverse = limbsVal s := by
    rw [← limbsVal_reverse, List.reverse_reverse]
  have hq : limbsVal (scalarDivRun s d).1 = valMSB (divGo d s.reverse 0).1 := by
    unfold scalarDivRun
    rw [limbsVal_stripTrailingZeros, limbsVal_reverse]
  have key : limbsVal s = d * limbsVal (scalarDivRun s d).1 + (scalarDivRun s d).2 := by
    rw [hq]
    show limbsVal s = d * valMSB (divGo d s.reverse 0).1 + (divGo d s.reverse 0).2
    rw [heq, hm]
    ring
  have hrem2 : (scalarDivRun s d).2 < d := hrem
  constructor
  · rw [key, Nat.mul_add_div (Nat.pos_of_ne_zero hd), Nat.div_eq_of_lt hrem2, Nat.add_zero]
  · rw [key, Nat.mul_add_mod, Nat.mod_eq_of_lt hrem2]

theorem scalarDivRun_valid (s : List Nat) (d : Nat) : validLimbs (scalarDivRun s d).1 :=
  validLimbs_stripTrailingZeros _
    (validLimbs_reverse _ (divGo_valid d s.reverse 0))

theorem scalarDivRun_getLast (s : List Nat) (d : Nat) :
    (scalarDivRun s d).1.getLast? ≠ some 0 :=
  stripTrailingZeros_getLast _

theorem scalarDivRun_le (s : List Nat) (d : Nat) :
    d * limbsVal (scalarDivRun s d).1 ≤ limbsVal s := by
  have h := divGo_le d s.reverse 0
  have hm : valMSB s.reverse = limbsVal s := by
    rw [← limbsVal_reverse, List.reverse_reverse]
  have hq : limbsVal (scalarDivRun s d).1 = valMSB (divGo d s.reverse 0).1 := by
    unfold scalarDivRun
    rw [limbsVal_stripTrailingZeros, limbsVal_reverse]
  rw [hq]
  calc d * valMSB (divGo d s.reverse 0).1
      ≤ 0 * limbBase ^ s.reverse.length + valMSB s.reverse := h
    _ = limbsVal s := by rw [hm]; ring

theorem scalarDivRun_length_le (s : List Nat) (d : Nat) :
    (scalarDivRun s d).1.length ≤ s.length := by
  unfold scalarDivRun
  calc (stripTrailingZeros (divGo d s.reverse 0).1.reverse).length
      ≤ (divGo d s.reverse 0).1.reverse.length := stripTrailingZeros_length_le _
    _ = (divGo d s.reverse 0).1.length := List.length_reverse _
    _ = s.reverse.length := divGo_length d s.reverse 0
    _ = s.length := List.length_reverse _

theorem scalarDivRun_eq_nil_of_zero (s : List Nat) (d : Nat) (hd : 0 < d)
    (h : limbsVal s = 0) : (scalarDivRun s d).1 = [] := by
  have hle := scalarDivRun_le s d
  rw [h, Nat.le_zero, Nat.mul_eq_zero] at hle
  have hv : limbsVal (scalarDivRun s d).1 = 0 := by omega
  exact eq_nil_of_getLast_of_val_zero _ (scalarDivRun_getLast s d) hv

/- ### Decimal parsing (BigInt::initFromString and pushDecimalDigit) -/

/-- The digit test of the parser: `!(c < '0' || c > '9')` on the character code. -/
def isDigitChar (c : Char) : Bool := 48 ≤ c.toNat && c.toNat ≤ 57

/-- Numeric value of a digit character: `c - '0'`. -/
def digitVal (c : Char) : Nat := c.toNat - 48

/-- The character `'0' + d`. -/
def digitChar (d : Nat) : Char := Char.ofNat (48 + d)

/-- BigInt::pushDecimalDigit: `if (!sections.size()) push_back(digit); else multiplyAdd(10, digit)`. -/
def pushDecimalDigit (s : List Nat) (d : Nat) : List Nat :=
  if s = [] then [d] else multiplyAdd s 10 d

/-- The digit-consuming loop of BigInt::initFromString:
`while (!(s[0] < '0' || s[0] > '9')) pushDecimalDigit(s[0] - '0'), ++s`.
Returns the accumulated limbs and the unconsumed rest of the input. -/
def parseDigits : List Nat → List Char → List Nat × List Char
  | acc, [] => (acc, [])
  | acc, c :: rest =>
    if isDigitChar c then parseDigits (pushDecimalDigit acc (digitVal c)) rest
    else (acc, c :: rest)

/-- The sign handling of BigInt::initFromString:
`if (s[0] == '-') ++s, sign = true; else if (s[0] == '+') ++s, sign = false;`
(`sign` of a freshly constructed BigInt is false). -/
def stripSign : List Char → Bool × List Char
  | [] => (false, [])
  | c :: rest =>
    if c = '-' then (true, rest)
    else if c = '+' then (false, rest)
    else (false, c :: rest)

/-- Whether the first remaining character is an ASCII digit (an empty rest,
i.e. the terminating NUL of the C string, is not a digit). -/
def firstIsDigit : List Char → Bool
  | [] => false
  | c :: _ => isDigitChar c

/-- BigInt::initFromString: strip an optional sign, fail (`throw`) unless the next
character is a decimal digit, then consume the maximal digit run.  Returns the sign,
the limbs, and the unconsumed tail of the input. -/
def initFromString (s : List Char) : Option (Bool × List Nat × List Char) :=
  let p := stripSign s
  if firstIsDigit p.2 then some (p.1, parseDigits [] p.2) else none

theorem parseDigits_eq (l : List Char) :
    ∀ acc : List Nat,
      parseDigits acc l =
        ((l.takeWhile isDigitChar).foldl (fun a c => pushDecimalDigit a (digitVal c)) acc,
          l.dropWhile isDigitChar) := by
  induction l with
  | nil => intro acc; rfl
  | cons c rest ih =>
    intro acc
    by_cases hc : isDigitChar c
    · rw [List.takeWhile_cons_of_pos hc, List.dropWhile_cons_of_pos hc]
      simp only [parseDigits, if_pos hc, List.foldl_cons]
      exact ih _
    · rw [List.takeWhile_cons_of_neg (by simpa using hc),
        List.dropWhile_cons_of_neg (by simpa using hc)]
      simp only [parseDigits, if_neg hc, List.foldl_nil]

theorem isDigitChar_bounds (c : Char) (h : isDigitChar c = true) :
    48 ≤ c.toNat ∧ c.toNat ≤ 57 := by
  simpa [isDigitChar, Bool.and_eq_true, decide_eq_true_eq] using h

theorem digitVal_lt_ten (c : Char) (h : isDigitChar c = true) : digitVal c < 10 := by
  have := isDigitChar_bounds c h
  unfold digitVal
  omega

/-- Value law for pushDecimalDigit: one decimal digit shifts the value by ten. -/
theorem pushDecimalDigit_val (s : List Nat) (d : Nat) (hs : validLimbs s) (hd : d < 10) :
    limbsVal (pushDecimalDigit s d) = 10 * limbsVal s + d ∧
    validLimbs (pushDecimalDigit s d) ∧ pushDecimalDigit s d ≠ [] := by
  have hB : (10 : Nat) < limbBase := by
    have := two_le_limbBase
    unfold limbBase storageBits at *
    norm_num
  have hdB : d < limbBase := by omega
  unfold pushDecimalDigit
  by_cases h : s = []
  · rw [if_pos h, h]
    refine ⟨by simp [limbsVal_cons, limbsVal_nil], ?_, by simp⟩
    intro x hx
    simp only [List.mem_singleton] at hx
    omega
  · rw [if_neg h]
    refine ⟨?_, multiplyAdd_valid s 10 d hdB, multiplyAdd_ne_nil s 10 d⟩
    rw [multiplyAdd_val s 10 d hs hB hdB]
    ring

/-- Value, validity and non-emptiness of the parser's digit fold. -/
theorem parseFold_spec (l : List Char) :
    ∀ acc : List Nat, validLimbs acc → (∀ c ∈ l, isDigitChar c = true) →
      limbsVal (l.foldl (fun a c => pushDecimalDigit a (digitVal c)) acc) =
        l.foldl (fun n c => 10 * n + digitVal c) (limbsVal acc) ∧
      validLimbs (l.foldl (fun a c => pushDecimalDigit a (digitVal c)) acc) ∧
      ((acc ≠ [] ∨ l ≠ []) →
        l.foldl (fun a c => pushDecimalDigit a (digitVal c)) acc ≠ []) := by
  induction l with
  | nil =>
    intro acc hacc _
    refine ⟨rfl, hacc, ?_⟩
    intro h
    rcases h with h | h
    · simpa using h
    · exact absurd rfl h
  | cons c rest ih =>
    intro acc hacc hdig
    have hc : isDigitChar c = true := hdig c (List.mem_cons_self c rest)
    have hrest : ∀ x ∈ rest, isDigitChar x = true :=
      fun x hx => hdig x (List.mem_cons_of_mem c hx)
    obtain ⟨hval, hvalid, hne⟩ :=
      pushDecimalDigit_val acc (digitVal c) hacc (digitVal_lt_ten c hc)
    obtain ⟨ih1, ih2, ih3⟩ := ih (pushDecimalDigit acc (digitVal c)) hvalid hrest
    refine ⟨?_, ih2, ?_⟩
    · simp only [List.foldl_cons]
      rw [ih1, hval]
    · intro _
      exact ih3 (Or.inl hne)

/- ### Decimal serialization (BigInt::writeString) -/

/-- The digit loop of BigInt::writeString on the private copy:
`while (temp.sections.size()) { temp.scalarDiv(10, rem); str.push_back('0' + rem); }`.
Digits are produced least-significant first, exactly in push order. -/
def serDigits (s : List Nat) : List Char :=
  if h : s = [] then []
  else digitChar (scalarDivRun s 10).2 :: serDigits (scalarDivRun s 10).1
termination_by limbsVal s + s.length
decreasing_by
  have hle := scalarDivRun_le s 10
  have hlen := scalarDivRun_length_le s 10
  have hsl : 0 < s.length := List.length_pos.mpr h
  by_cases hv : limbsVal s = 0
  · have hq : (scalarDivRun s 10).1 = [] :=
      scalarDivRun_eq_nil_of_zero s 10 (by norm_num) hv
    rw [hq]
    simp only [limbsVal_nil, List.length_nil]
    omega
  · omega

theorem serDigits_nil : serDigits [] = [] := by
  unfold serDigits
  rfl

theorem serDigits_of_ne_nil (s : List Nat) (h : s ≠ []) :
    serDigits s = digitChar (scalarDivRun s 10).2 :: serDigits (scalarDivRun s 10).1 := by
  conv_lhs => unfold serDigits
  rw [dif_neg h]

/-- BigInt::writeString: a leading `'-'` whenever the sign flag is set, then
either the literal `"0"` for an empty limb vector or the reversed digit run. -/
def writeString (x : BigIntM) : List Char :=
  (if x.sign then ['-'] else []) ++
    (if x.sections = [] then ['0'] else (serDigits x.sections).reverse)

/-- Reference decimal notation of a natural number, most-significant digit first,
with `0` rendered as the single digit `0` and no leading zeros otherwise. -/
def natToDigits (n : Nat) : List Char :=
  if n < 10 then [digitChar n]
  else natToDigits (n / 10) ++ [digitChar (n % 10)]
termination_by n
decreasing_by
  exact Nat.div_lt_self (by omega) (by omega)

theorem natToDigits_lt (n : Nat) (h : n < 10) : natToDigits n = [digitChar n] := by
  unfold natToDigits
  rw [if_pos h]

theorem natToDigits_ge (n : Nat) (h : ¬n < 10) :
    natToDigits n = natToDigits (n / 10) ++ [digitChar (n % 10)] := by
  conv_lhs => unfold natToDigits
  rw [if_neg h]

/-- The digit loop of writeString, reversed, is exactly the decimal notation of the value. -/
theorem serDigits_reverse (s : List Nat) (hv : validLimbs s) (hs : s ≠ []) :
    (serDigits s).reverse = natToDigits (limbsVal s) := by
  generalize hN : limbsVal s = N
  induction N using Nat.strong_induction_on generalizing s with
  | _ N ih =>
    obtain ⟨hq, hr⟩ := scalarDivRun_spec s 10 (by norm_num) hv
    rw [hN] at hq hr
    rw [serDigits_of_ne_nil s hs, List.reverse_cons, hr]
    by_cases hN0 : N < 10
    · have hq0 : limbsVal (scalarDivRun s 10).1 = 0 := by
        rw [hq, Nat.div_eq_of_lt hN0]
      have hqnil : (scalarDivRun s 10).1 = [] :=
        eq_nil_of_getLast_of_val_zero _ (scalarDivRun_getLast s 10) hq0
      rw [hqnil, serDigits_nil, List.reverse_nil, List.nil_append,
        natToDigits_lt N hN0, Nat.mod_eq_of_lt hN0]
    · have hNpos : 0 < N := by omega
      have hqpos : 0 < limbsVal (scalarDivRun s 10).1 := by
        rw [hq]
        exact Nat.div_pos (by omega) (by norm_num)
      have hqne : (scalarDivRun s 10).1 ≠ [] := by
        intro hcon
        rw [hcon, limbsVal_nil] at hqpos
        omega
      have hlt : N / 10 < N := Nat.div_lt_self hNpos (by norm_num)
      have ihq := ih (N / 10) hlt (scalarDivRun s 10).1
        (scalarDivRun_valid s 10) hqne hq
      rw [ihq, natToDigits_ge N hN0]

/-- writeString always produces the sign character (iff the flag is set) followed by
the decimal notation of the limb value. -/
theorem writeString_eq (x : BigIntM) (hv : validLimbs x.sections) :
    writeString x = (if x.sign then ['-'] else []) ++ natToDigits (limbsVal x.sections) := by
  unfold writeString
  by_cases h : x.sections = []
  · rw [if_pos h, h, limbsVal_nil, natToDigits_lt 0 (by norm_num)]
    rfl
  · rw [if_neg h, serDigits_reverse x.sections hv h]

/- ### Digit characters and reference decimal values -/

theorem charToNat_inj (a b : Char) (h : a.toNat = b.toNat) : a = b := by
  apply Char.eq_of_val_eq
  exact UInt32.ext h

theorem digitChar_toNat (d : Nat) (h : d < 10) : (digitChar d).toNat = 48 + d := by
  unfold digitChar
  interval_cases d <;> decide

theorem digitVal_digitChar (d : Nat) (h : d < 10) : digitVal (digitChar d) = d := by
  unfold digitVal
  rw [digitChar_toNat d h]
  omega

theorem isDigitChar_digitChar (d : Nat) (h : d < 10) : isDigitChar (digitChar d) = true := by
  unfold isDigitChar
  rw [digitChar_toNat d h]
  simp only [Bool.and_eq_true, decide_eq_true_eq]
  omega

theorem digitChar_digitVal (c : Char) (h : isDigitChar c = true) : digitChar (digitVal c) = c := by
  apply charToNat_inj
  have hb := isDigitChar_bounds c h
  have hlt : digitVal c < 10 := digitVal_lt_ten c h
  rw [digitChar_toNat _ hlt]
  unfold digitVal
  omega

theorem digitVal_eq_zero_iff (c : Char) (h : isDigitChar c = true) :
    digitVal c = 0 ↔ c = '0' := by
  constructor
  · intro h0
    have hc := digitChar_digitVal c h
    rw [h0] at hc
    rw [← hc]
    decide
  · rintro rfl
    decide

/-- Numeric value of a most-significant-first digit string, with accumulator
(the mathematical content of the `value = value * 10 + digit` recurrence). -/
def natOfDigitsFrom : List Char → Nat → Nat
  | [], acc => acc
  | c :: rest, acc => natOfDigitsFrom rest (10 * acc + digitVal c)

/-- Numeric value of a decimal digit string. -/
def natOfDigits (l : List Char) : Nat := natOfDigitsFrom l 0

theorem natOfDigitsFrom_append (l m : List Char) :
    ∀ a : Nat, natOfDigitsFrom (l ++ m) a = natOfDigitsFrom m (natOfDigitsFrom l a) := by
  induction l with
  | nil => intro a; rfl
  | cons c rest ih => intro a; exact ih _

theorem natOfDigitsFrom_eq (l : List Char) :
    ∀ a : Nat, natOfDigitsFrom l a = a * 10 ^ l.length + natOfDigits l := by
  induction l with
  | nil => intro a; simp [natOfDigitsFrom, natOfDigits]
  | cons c rest ih =>
    intro a
    show natOfDigitsFrom rest (10 * a + digitVal c) = _
    rw [ih (10 * a + digitVal c)]
    have h2 : natOfDigits (c :: rest) = digitVal c * 10 ^ rest.length + natOfDigits rest := by
      show natOfDigitsFrom rest (10 * 0 + digitVal c) = _
      rw [ih (10 * 0 + digitVal c)]
      ring_nf
    rw [h2]
    simp only [List.length_cons, pow_succ]
    ring

theorem natOfDigits_snoc (l : List Char) (c : Char) :
    natOfDigits (l ++ [c]) = 10 * natOfDigits l + digitVal c := by
  unfold natOfDigits
  rw [natOfDigitsFrom_append]
  rfl

theorem natOfDigitsFrom_eq_foldl (l : List Char) :
    ∀ a : Nat, natOfDigitsFrom l a = l.foldl (fun n c => 10 * n + digitVal c) a := by
  induction l with
  | nil => intro a; rfl
  | cons c rest ih => intro a; exact ih _

theorem natOfDigits_eq_zero_iff (l : List Char) :
    natOfDigits l = 0 ↔ ∀ c ∈ l, digitVal c = 0 := by
  induction l with
  | nil => simp [natOfDigits, natOfDigitsFrom]
  | cons c rest ih =>
    have hc : natOfDigits (c :: rest) = digitVal c * 10 ^ rest.length + natOfDigits rest := by
      show natOfDigitsFrom rest (10 * 0 + digitVal c) = _
      rw [natOfDigitsFrom_eq rest (10 * 0 + digitVal c)]
      ring_nf
    rw [hc]
    have hpow : 0 < 10 ^ rest.length := Nat.pos_pow_of_pos _ (by norm_num)
    constructor
    · intro h y hy
      have hdc : digitVal c = 0 ∧ natOfDigits rest = 0 := by
        constructor
        · by_contra hcon
          have : 10 ^ rest.length ≤ digitVal c * 10 ^ rest.length :=
            Nat.le_mul_of_pos_left _ (Nat.pos_of_ne_zero hcon)
          omega
        · omega
      rcases List.mem_cons.mp hy with rfl | hy
      · exact hdc.1
      · exact (ih.mp hdc.2) y hy
    · intro h
      have h1 : digitVal c = 0 := h c (List.mem_cons_self c rest)
      have h2 : natOfDigits rest = 0 := ih.mpr (fun y hy => h y (List.mem_cons_of_mem c hy))
      rw [h1, h2]
      ring

theorem natToDigits_mem (n : Nat) : ∀ c ∈ natToDigits n, isDigitChar c = true := by
  induction n using Nat.strong_induction_on with
  | _ n ih =>
    by_cases h : n < 10
    · rw [natToDigits_lt n h]
      intro c hc
      rw [List.mem_singleton] at hc
      rw [hc]
      exact isDigitChar_digitChar n h
    · rw [natToDigits_ge n h]
      intro c hc
      rcases List.mem_append.mp hc with hc | hc
      · exact ih (n / 10) (Nat.div_lt_self (by omega) (by norm_num)) c hc
      · rw [List.mem_singleton] at hc
        rw [hc]
        exact isDigitChar_digitChar (n % 10) (Nat.mod_lt _ (by norm_num))

theorem natToDigits_ne_nil (n : Nat) : natToDigits n ≠ [] := by
  by_cases h : n < 10
  · rw [natToDigits_lt n h]
    simp
  · rw [natToDigits_ge n h]
    simp

theorem natOfDigits_natToDigits (n : Nat) : natOfDigits (natToDigits n) = n := by
  induction n using Nat.strong_induction_on with
  | _ n ih =>
    by_cases h : n < 10
    · rw [natToDigits_lt n h]
      show natOfDigitsFrom [] (10 * 0 + digitVal (digitChar n)) = n
      unfold natOfDigitsFrom
      rw [digitVal_digitChar n h]
      ring
    · rw [natToDigits_ge n h, natOfDigits_snoc,
        ih (n / 10) (Nat.div_lt_self (by omega) (by norm_num)),
        digitVal_digitChar _ (Nat.mod_lt _ (by norm_num))]
      omega

theorem isDigitChar_not_dash (c : Char) (h : isDigitChar c = true) : c ≠ '-' := by
  rintro rfl
  exact absurd h (by decide)

theorem isDigitChar_not_plus (c : Char) (h : isDigitChar c = true) : c ≠ '+' := by
  rintro rfl
  exact absurd h (by decide)

theorem stripSign_digits (l : List Char) (hne : l ≠ [])
    (hd : ∀ c ∈ l, isDigitChar c = true) : stripSign l = (false, l) := by
  cases l with
  | nil => exact absurd rfl hne
  | cons c t =>
    have hc := hd c (List.mem_cons_self c t)
    show (if c = '-' then (true, t)
      else if c = '+' then (false, t) else (false, c :: t)) = (false, c :: t)
    rw [if_neg (isDigitChar_not_dash c hc), if_neg (isDigitChar_not_plus c hc)]

theorem dropWhile_append_of_all (p : Char → Bool) (l m : List Char)
    (h : ∀ x ∈ l, p x = true) : (l ++ m).dropWhile p = m.dropWhile p := by
  induction l with
  | nil => rfl
  | cons x xs ih =>
    rw [List.cons_append, List.dropWhile_cons_of_pos (h x (List.mem_cons_self x xs))]
    exact ih (fun y hy => h y (List.mem_cons_of_mem x hy))

theorem dropWhile_append_of_ne_nil (p : Char → Bool) (l m : List Char)
    (h : l.dropWhile p ≠ []) : (l ++ m).dropWhile p = l.dropWhile p ++ m := by
  induction l with
  | nil => exact absurd rfl h
  | cons x xs ih =>
    by_cases hx : p x = true
    · rw [List.dropWhile_cons_of_pos hx] at h
      rw [List.cons_append, List.dropWhile_cons_of_pos hx, List.dropWhile_cons_of_pos hx,
        ih h]
    · rw [List.cons_append, List.dropWhile_cons_of_neg (by simpa using hx),
        List.dropWhile_cons_of_neg (by simpa using hx), List.cons_append]

/-- The empty string of digits denotes zero and is rendered as the single digit 0. -/
def zeroIfEmpty : List Char → List Char
  | [] => ['0']
  | r => r

theorem zeroIfEmpty_of_ne_nil (l : List Char) (h : l ≠ []) : zeroIfEmpty l = l := by
  cases l with
  | nil => exact absurd rfl h
  | cons c t => rfl

/-- Modelled from the spec (§8 Round-trip): the canonical form of a decimal string:
the sign is kept, leading zeros are stripped, except that an all-zero digit run
collapses to the literal digit string 0. -/
def canonicalDecimal (s : List Char) : List Char :=
  let p := stripSign s
  (if p.1 then ['-'] else []) ++ zeroIfEmpty (p.2.dropWhile (fun c => c == '0'))

/-- Re-serializing the numeric value of a digit string produces its canonical form
(leading zeros stripped, all-zero run collapsing to the single digit 0). -/
theorem natToDigits_natOfDigits (ds : List Char) :
    ds ≠ [] → (∀ c ∈ ds, isDigitChar c = true) →
      natToDigits (natOfDigits ds) = zeroIfEmpty (ds.dropWhile (fun c => c == '0')) := by
  induction ds using List.reverseRecOn with
  | nil => intro hne _; exact absurd rfl hne
  | append_singleton l c ih =>
    intro _ hd
    have hc : isDigitChar c = true := hd c (by simp)
    have hcv : digitVal c < 10 := digitVal_lt_ten c hc
    have hsingle : natToDigits (digitVal c) =
        zeroIfEmpty ([c].dropWhile (fun c => c == '0')) := by
      rw [natToDigits_lt _ hcv, digitChar_digitVal c hc]
      by_cases hc0 : c = '0'
      · subst hc0
        rw [List.dropWhile_cons_of_pos (by decide), List.dropWhile_nil]
        rfl
      · rw [List.dropWhile_cons_of_neg (by simpa using hc0)]
        rfl
    by_cases hl : l = []
    · subst hl
      rw [List.nil_append]
      have hval : natOfDigits [c] = digitVal c := by
        show natOfDigitsFrom [] (10 * 0 + digitVal c) = digitVal c
        unfold natOfDigitsFrom
        ring
      rw [hval]
      exact hsingle
    · have hld : ∀ x ∈ l, isDigitChar x = true := fun x hx => hd x (by simp [hx])
      by_cases hm0 : natOfDigits l = 0
      · have hall : ∀ x ∈ l, (fun c => c == '0') x = true := by
          intro x hx
          have hz : digitVal x = 0 := (natOfDigits_eq_zero_iff l).mp hm0 x hx
          have := (digitVal_eq_zero_iff x (hld x hx)).mp hz
          simp [this]
        rw [natOfDigits_snoc, hm0, Nat.mul_zero, Nat.zero_add,
          dropWhile_append_of_all _ l [c] hall]
        exact hsingle
      · have hmpos : 0 < natOfDigits l := Nat.pos_of_ne_zero hm0
        have hdne : l.dropWhile (fun c => c == '0') ≠ [] := by
          intro hcon
          apply hm0
          rw [natOfDigits_eq_zero_iff]
          intro x hx
          have hx0 : (x == '0') = true := List.dropWhile_eq_nil_iff.mp hcon x hx
          have : x = '0' := by simpa using hx0
          rw [this]
          decide
        rw [natOfDigits_snoc]
        have h10 : ¬(10 * natOfDigits l + digitVal c < 10) := by omega
        rw [natToDigits_ge _ h10]
        have hdiv : (10 * natOfDigits l + digitVal c) / 10 = natOfDigits l := by omega
        have hmod : (10 * natOfDigits l + digitVal c) % 10 = digitVal c := by omega
        rw [hdiv, hmod, ih hl hld, digitChar_digitVal c hc,
          dropWhile_append_of_ne_nil _ l [c] hdne,
          zeroIfEmpty_of_ne_nil _ hdne,
          zeroIfEmpty_of_ne_nil _ (by simp)]

/- ### Comparison (BigInt::operator bool and BigInt::cmp) -/

/-- BigInt::operator bool: `sections.size() && !(sections.size() == 1 && sections[0] == 0)`. -/
def opBool (s : List Nat) : Bool :=
  !(s.length == 0) && !((s.length == 1) && (s.headD 0 == 0))

theorem opBool_false_iff (s : List Nat) : opBool s = false ↔ s = [] ∨ s = [0] := by
  cases s with
  | nil => simp [opBool]
  | cons x xs =>
    cases xs with
    | nil =>
      simp only [opBool, List.length_cons, List.length_nil, List.headD_cons]
      constructor
      · intro h
        right
        simp only [Nat.zero_add, Bool.and_eq_false_iff] at h
        rcases h with h | h
        · simp at h
        · simp at h
          rw [h]
      · rintro (h | h)
        · simp at h
        · simp only [List.cons.injEq] at h
          rw [h.1]
          decide
    | cons y ys =>
      simp [opBool]

theorem opBool_false_val (s : List Nat) (h : opBool s = false) : limbsVal s = 0 := by
  rcases (opBool_false_iff s).mp h with rfl | rfl
  · rfl
  · decide

/-- The limb loop of BigInt::cmp: walk both limb lists from index 0 (the
least-significant limb) upward; the first unequal pair returns, inverted for a
negative shared sign; falling off the end gives 0. -/
def cmpLoop : List Nat → List Nat → Bool → Int
  | x :: xs, y :: ys, sg =>
    if x < y then (if sg then 1 else -1)
    else if y < x then (if sg then -1 else 1)
    else cmpLoop xs ys sg
  | _, _, _ => 0

/-- BigInt::cmp: zero cases, sign case, length (magnitude) case with the ±2
signal, then the limb loop. -/
def BigIntM.cmp (x y : BigIntM) : Int :=
  if opBool x.sections = false then
    (if opBool y.sections = false then 0 else if y.sign then 1 else -1)
  else if opBool y.sections = false then (if x.sign then -1 else 1)
  else if x.sign ≠ y.sign then (if x.sign then -1 else 1)
  else if x.sections.length ≠ y.sections.length then
    (if x.sections.length < y.sections.length then -2 else 2)
  else cmpLoop x.sections y.sections x.sign

/-- Modelled from the spec (§4.7): for operands of the same sign and limb count,
compare limbs starting from the MOST-significant limb; the first mismatch decides,
inverted if the sign is negative. -/
def specCmpMsbFirst (sg : Bool) (a b : List Nat) : Int :=
  cmpLoop a.reverse b.reverse sg

theorem cmpLoop_self (sg : Bool) : ∀ a : List Nat, cmpLoop a a sg = 0 := by
  intro a
  induction a with
  | nil => rfl
  | cons x xs ih =>
    simp only [cmpLoop, Nat.lt_irrefl, if_false]
    exact ih

theorem cmpLoop_first_diff (sg : Bool) (p : List Nat) :
    ∀ (xi yi : Nat) (ta tb : List Nat), xi ≠ yi →
      cmpLoop (p ++ xi :: ta) (p ++ yi :: tb) sg =
        if xi < yi then (if sg then 1 else -1) else (if sg then -1 else 1) := by
  induction p with
  | nil =>
    intro xi yi ta tb hne
    by_cases h : xi < yi
    · simp only [List.nil_append, cmpLoop, if_pos h]
    · have h2 : yi < xi := by omega
      simp only [List.nil_append, cmpLoop, if_neg h, if_pos h2]
  | cons q qs ih =>
    intro xi yi ta tb hne
    simp only [List.cons_append, cmpLoop, Nat.lt_irrefl, if_false]
    exact ih xi yi ta tb hne

theorem cmp_eq_cmpLoop (x y : BigIntM) (hx : opBool x.sections = true)
    (hy : opBool y.sections = true) (hs : x.sign = y.sign)
    (hl : x.sections.length = y.sections.length) :
    BigIntM.cmp x y = cmpLoop x.sections y.sections x.sign := by
  unfold BigIntM.cmp
  rw [if_neg (by simp [hx]), if_neg (by simp [hy]), if_neg (by simp [hs]),
    if_neg (by simp [hl])]

/- ### BigInt × BigInt multiplication (BigInt::operator*) -/

theorem splitLow_lt (v : Nat) : splitLow v < limbBase := Nat.mod_lt _ limbBase_pos

theorem splitHigh_lt (v : Nat) : splitHigh v < limbBase := Nat.mod_lt _ limbBase_pos

theorem split_sum (v : Nat) (hv : v < limbBase * limbBase) :
    splitLow v + limbBase * splitHigh v = v := by
  unfold splitLow splitHigh
  have hdiv : v / limbBase < limbBase := Nat.div_lt_of_lt_mul hv
  rw [Nat.mod_eq_of_lt hdiv]
  have := Nat.div_add_mod v limbBase
  omega

/-- The carry ripple loop of BigInt::operator*:
`for (auto k = i+j+1; carry != 0; ++k)` — if `k > r.sections.size()` push the carry
and break, otherwise add the carry into `r.sections[k]` (an out-of-bounds access
when `k == r.sections.size()`, modelled as `none`) and split again. -/
def rippleAdd (r : List Nat) (k carry : Nat) : Option (List Nat) :=
  if carry = 0 then some r
  else if r.length < k then some (r ++ [carry])
  else if h : k < r.length then
    rippleAdd (r.set k (splitLow (r[k] + carry))) (k + 1) (splitHigh (r[k] + carry))
  else none
termination_by r.length - k
decreasing_by
  simp only [List.length_set]
  omega

theorem rippleAdd_zero (r : List Nat) (k : Nat) : rippleAdd r k 0 = some r := by
  conv_lhs => unfold rippleAdd
  rw [if_pos rfl]

theorem rippleAdd_step (r : List Nat) (k c : Nat) (hc : c ≠ 0) (hk : k < r.length) :
    rippleAdd r k c =
      rippleAdd (r.set k (splitLow (r[k] + c))) (k + 1) (splitHigh (r[k] + c)) := by
  conv_lhs => unfold rippleAdd
  rw [if_neg hc, if_neg (by omega), dif_pos hk]

/-- The ripple loop terminates without any out-of-bounds access and without ever
taking the array-growing branch, provided the limbs-plus-carry value fits in the
pre-allocated length; and it adds `carry * limbBase ^ k` to the value. -/
theorem rippleAdd_spec (n : Nat) :
    ∀ (r : List Nat) (k c : Nat), r.length - k ≤ n → validLimbs r → c < limbBase →
      limbsVal r + c * limbBase ^ k < limbBase ^ r.length →
      ∃ r2, rippleAdd r k c = some r2 ∧ r2.length = r.length ∧ validLimbs r2 ∧
        limbsVal r2 = limbsVal r + c * limbBase ^ k := by
  induction n with
  | zero =>
    intro r k c hn hr hc hb
    by_cases hc0 : c = 0
    · subst hc0
      exact ⟨r, rippleAdd_zero r k, rfl, hr, by ring⟩
    · exfalso
      have hk : r.length ≤ k := by omega
      have h1 : limbBase ^ r.length ≤ limbBase ^ k :=
        Nat.pow_le_pow_right limbBase_pos hk
      have h2 : limbBase ^ k ≤ c * limbBase ^ k :=
        Nat.le_mul_of_pos_left _ (Nat.pos_of_ne_zero hc0)
      omega
  | succ n ih =>
    intro r k c hn hr hc hb
    by_cases hc0 : c = 0
    · subst hc0
      exact ⟨r, rippleAdd_zero r k, rfl, hr, by ring⟩
    · have hk : k < r.length := by
        by_contra hcon
        have hk2 : r.length ≤ k := by omega
        have h1 : limbBase ^ r.length ≤ limbBase ^ k :=
          Nat.pow_le_pow_right limbBase_pos hk2
        have h2 : limbBase ^ k ≤ c * limbBase ^ k :=
          Nat.le_mul_of_pos_left _ (Nat.pos_of_ne_zero hc0)
        omega
      rw [rippleAdd_step r k c hc0 hk]
      have hrk : r[k] < limbBase := hr _ (List.getElem_mem hk)
      have hslt : r[k] + c < limbBase * limbBase := by
        have hB := two_le_limbBase
        nlinarith
      have hsplit := split_sum (r[k] + c) hslt
      have hset := limbsVal_set r k (splitLow (r[k] + c)) hk
      have hsetlen : (r.set k (splitLow (r[k] + c))).length = r.length := List.length_set r _ _
      have hsetvalid : validLimbs (r.set k (splitLow (r[k] + c))) :=
        validLimbs_set r k _ hr (splitLow_lt _)
      have hkey : limbsVal (r.set k (splitLow (r[k] + c))) +
          splitHigh (r[k] + c) * limbBase ^ (k + 1) + r[k] * limbBase ^ k =
          limbsVal r + c * limbBase ^ k + r[k] * limbBase ^ k := by
        calc limbsVal (r.set k (splitLow (r[k] + c))) +
              splitHigh (r[k] + c) * limbBase ^ (k + 1) + r[k] * limbBase ^ k
            = (limbsVal (r.set k (splitLow (r[k] + c))) + r[k] * limbBase ^ k) +
              splitHigh (r[k] + c) * limbBase ^ (k + 1) := by ring
          _ = (limbsVal r + splitLow (r[k] + c) * limbBase ^ k) +
              splitHigh (r[k] + c) * limbBase ^ (k + 1) := by rw [hset]
          _ = limbsVal r +
              (splitLow (r[k] + c) + limbBase * splitHigh (r[k] + c)) * limbBase ^ k := by
                simp only [pow_succ]; ring
          _ = limbsVal r + (r[k] + c) * limbBase ^ k := by rw [hsplit]
          _ = limbsVal r + c * limbBase ^ k + r[k] * limbBase ^ k := by ring
      have hkey2 : limbsVal (r.set k (splitLow (r[k] + c))) +
          splitHigh (r[k] + c) * limbBase ^ (k + 1) =
          limbsVal r + c * limbBase ^ k := by omega
      obtain ⟨r2, heq, hlen, hval, hv⟩ := ih (r.set k (splitLow (r[k] + c))) (k + 1)
        (splitHigh (r[k] + c))
        (by rw [hsetlen]; omega)
        hsetvalid
        (splitHigh_lt _)
        (by rw [hsetlen, hkey2]; exact hb)
      exact ⟨r2, heq, by rw [hlen, hsetlen], hval, by rw [hv, hkey2]⟩

/-- The inner `j` loop of BigInt::operator*: for each limb of the second operand,
`p = sections[i] * v.sections[j] + r.sections[i+j]` in uint64_t, store the split,
then ripple the carry from `i+j+1`. -/
def mulInner : List Nat → Nat → Nat → Nat → List Nat → Option (List Nat)
  | [], _, _, _, r => some r
  | bj :: bs, ai, i, j, r =>
    if h : i + j < r.length then
      (rippleAdd (r.set (i + j) (splitLow (ai * bj + r[i + j])))
          (i + j + 1) (splitHigh (ai * bj + r[i + j]))).bind
        (fun r2 => mulInner bs ai i (j + 1) r2)
    else none

/-- The outer `i` loop of BigInt::operator* over the limbs of the first operand. -/
def mulOuter : List Nat → List Nat → Nat → List Nat → Option (List Nat)
  | [], _, _, r => some r
  | ai :: arest, bs, i, r =>
    (mulInner bs ai i 0 r).bind (fun r2 => mulOuter arest bs (i + 1) r2)

/-- The non-zero path of BigInt::operator*: result limbs pre-allocated at length
`m + n` and filled by the schoolbook double loop. -/
def mulLimbs (a b : List Nat) : Option (List Nat) :=
  mulOuter a b 0 (List.replicate (a.length + b.length) 0)

/-- BigInt::operator*.  Returns the pair (returned BigInt, state of `*this` after
the call): the zero case executes `return sections.clear(), *this`, which clears
the receiver's limbs and returns a copy of the cleared receiver; the non-zero case
builds a fresh default-constructed result (sign false) and leaves `*this` alone. -/
def opMul (self v : BigIntM) : Option (BigIntM × BigIntM) :=
  if opBool self.sections = false ∨ opBool v.sections = false then
    some (⟨[], self.sign⟩, ⟨[], self.sign⟩)
  else
    (mulLimbs self.sections v.sections).map (fun rs => (⟨rs, false⟩, self))

theorem mulInner_spec (ai i : Nat) (hai : ai < limbBase) :
    ∀ (bs : List Nat) (j : Nat) (r : List Nat),
      validLimbs bs → validLimbs r →
      i + j + bs.length ≤ r.length →
      limbsVal r + ai * limbsVal bs * limbBase ^ (i + j) < limbBase ^ r.length →
      ∃ r2, mulInner bs ai i j r = some r2 ∧ r2.length = r.length ∧ validLimbs r2 ∧
        limbsVal r2 = limbsVal r + ai * limbsVal bs * limbBase ^ (i + j) := by
  intro bs
  induction bs with
  | nil =>
    intro j r _ hr _ _
    exact ⟨r, rfl, rfl, hr, by simp [limbsVal_nil]⟩
  | cons bj bs ih =>
    intro j r hbs hr hlen hbound
    have hbj : bj < limbBase := hbs bj (List.mem_cons_self bj bs)
    have hbsrest : validLimbs bs := fun y hy => hbs y (List.mem_cons_of_mem bj hy)
    have hidx : i + j < r.length := by
      have := hlen
      simp only [List.length_cons] at this
      omega
    have hrij : r[i + j] < limbBase := hr _ (List.getElem_mem hidx)
    have hp : ai * bj + r[i + j] < limbBase * limbBase := by
      have hB := two_le_limbBase
      have h1 : ai * bj ≤ (limbBase - 1) * (limbBase - 1) :=
        Nat.mul_le_mul (by omega) (by omega)
      nlinarith
    have hsplit := split_sum (ai * bj + r[i + j]) hp
    have hset := limbsVal_set r (i + j) (splitLow (ai * bj + r[i + j])) hidx
    have hsetlen : (r.set (i + j) (splitLow (ai * bj + r[i + j]))).length = r.length :=
      List.length_set r _ _
    have hsetvalid : validLimbs (r.set (i + j) (splitLow (ai * bj + r[i + j]))) :=
      validLimbs_set r _ _ hr (splitLow_lt _)
    have hvcons : limbsVal (bj :: bs) = bj + limbBase * limbsVal bs := limbsVal_cons bj bs
    have hmono : ai * bj * limbBase ^ (i + j) ≤
        ai * limbsVal (bj :: bs) * limbBase ^ (i + j) := by
      have h1 : ai * bj ≤ ai * limbsVal (bj :: bs) := by
        apply Nat.mul_le_mul_left
        rw [hvcons]
        exact Nat.le_add_right _ _
      exact Nat.mul_le_mul_right _ h1
    have hkey : limbsVal (r.set (i + j) (splitLow (ai * bj + r[i + j]))) +
        splitHigh (ai * bj + r[i + j]) * limbBase ^ (i + j + 1) +
        r[i + j] * limbBase ^ (i + j) =
        limbsVal r + ai * bj * limbBase ^ (i + j) + r[i + j] * limbBase ^ (i + j) := by
      calc limbsVal (r.set (i + j) (splitLow (ai * bj + r[i + j]))) +
            splitHigh (ai * bj + r[i + j]) * limbBase ^ (i + j + 1) +
            r[i + j] * limbBase ^ (i + j)
          = (limbsVal (r.set (i + j) (splitLow (ai * bj + r[i + j]))) +
              r[i + j] * limbBase ^ (i + j)) +
            splitHigh (ai * bj + r[i + j]) * limbBase ^ (i + j + 1) := by ring
        _ = (limbsVal r + splitLow (ai * bj + r[i + j]) * limbBase ^ (i + j)) +
            splitHigh (ai * bj + r[i + j]) * limbBase ^ (i + j + 1) := by rw [hset]
        _ = limbsVal r + (splitLow (ai * bj + r[i + j]) +
              limbBase * splitHigh (ai * bj + r[i + j])) * limbBase ^ (i + j) := by
            simp only [pow_succ]; ring
        _ = limbsVal r + (ai * bj + r[i + j]) * limbBase ^ (i + j) := by rw [hsplit]
        _ = limbsVal r + ai * bj * limbBase ^ (i + j) +
            r[i + j] * limbBase ^ (i + j) := by ring
    have hkey2 : limbsVal (r.set (i + j) (splitLow (ai * bj + r[i + j]))) +
        splitHigh (ai * bj + r[i + j]) * limbBase ^ (i + j + 1) =
        limbsVal r + ai * bj * limbBase ^ (i + j) := by omega
    obtain ⟨r2, heq2, hlen2, hval2, hv2⟩ := rippleAdd_spec
      ((r.set (i + j) (splitLow (ai * bj + r[i + j]))).length)
      (r.set (i + j) (splitLow (ai * bj + r[i + j]))) (i + j + 1)
      (splitHigh (ai * bj + r[i + j]))
      (by omega) hsetvalid (splitHigh_lt _)
      (by rw [hsetlen, hkey2]; omega)
    have hv2' : limbsVal r2 = limbsVal r + ai * bj * limbBase ^ (i + j) := by
      rw [hv2, hkey2]
    have hlen2' : r2.length = r.length := by rw [hlen2, hsetlen]
    have hstep : ai * limbsVal (bj :: bs) * limbBase ^ (i + j) =
        ai * bj * limbBase ^ (i + j) + ai * limbsVal bs * limbBase ^ (i + (j + 1)) := by
      rw [hvcons]
      have : i + (j + 1) = (i + j) + 1 := by omega
      rw [this]
      simp only [pow_succ]
      ring
    obtain ⟨r3, heq3, hlen3, hval3, hv3⟩ := ih (j + 1) r2 hbsrest hval2
      (by rw [hlen2']; simp only [List.length_cons] at hlen; omega)
      (by rw [hv2', hlen2']; omega)
    refine ⟨r3, ?_, by rw [hlen3, hlen2'], hval3, ?_⟩
    · show mulInner (bj :: bs) ai i j r = some r3
      simp only [mulInner, dif_pos hidx]
      rw [heq2, Option.some_bind]
      exact heq3
    · rw [hv3, hv2']
      omega

theorem mulOuter_spec (bs : List Nat) (hbs : validLimbs bs) :
    ∀ (arest : List Nat) (i : Nat) (r : List Nat),
      validLimbs arest → validLimbs r →
      i + arest.length + bs.length ≤ r.length + 1 →
      limbsVal r + limbsVal arest * limbsVal bs * limbBase ^ i < limbBase ^ r.length →
      ∃ r2, mulOuter arest bs i r = some r2 ∧ r2.length = r.length ∧ validLimbs r2 ∧
        limbsVal r2 = limbsVal r + limbsVal arest * limbsVal bs * limbBase ^ i := by
  intro arest
  induction arest with
  | nil =>
    intro i r _ hr _ _
    exact ⟨r, rfl, rfl, hr, by simp [limbsVal_nil]⟩
  | cons ai arest ih =>
    intro i r ha hr hlen hbound
    have hai : ai < limbBase := ha ai (List.mem_cons_self ai arest)
    have harest : validLimbs arest := fun y hy => ha y (List.mem_cons_of_mem ai hy)
    have hvcons : limbsVal (ai :: arest) = ai + limbBase * limbsVal arest :=
      limbsVal_cons ai arest
    have hmono : ai * limbsVal bs * limbBase ^ i ≤
        limbsVal (ai :: arest) * limbsVal bs * limbBase ^ i := by
      apply Nat.mul_le_mul_right
      apply Nat.mul_le_mul_right
      rw [hvcons]
      exact Nat.le_add_right _ _
    obtain ⟨r2, heq2, hlen2, hval2, hv2⟩ := mulInner_spec ai i hai bs 0 r hbs hr
      (by simp only [List.length_cons] at hlen; omega)
      (by rw [Nat.add_zero]; omega)
    have hstep : limbsVal (ai :: arest) * limbsVal bs * limbBase ^ i =
        ai * limbsVal bs * limbBase ^ i +
          limbsVal arest * limbsVal bs * limbBase ^ (i + 1) := by
      rw [hvcons]
      simp only [pow_succ]
      ring
    rw [Nat.add_zero] at hv2
    obtain ⟨r3, heq3, hlen3, hval3, hv3⟩ := ih (i + 1) r2 harest hval2
      (by rw [hlen2]; simp only [List.length_cons] at hlen; omega)
      (by rw [hv2, hlen2]; omega)
    refine ⟨r3, ?_, by rw [hlen3, hlen2], hval3, ?_⟩
    · show mulOuter (ai :: arest) bs i r = some r3
      simp only [mulOuter]
      rw [heq2, Option.some_bind]
      exact heq3
    · rw [hv3, hv2]
      omega

/-- Schoolbook multiplication is total (no out-of-bounds ripple, no growth of the
pre-allocated `m + n` result) and computes the product of the values. -/
theorem mulLimbs_spec (a b : List Nat) (ha : validLimbs a) (hb : validLimbs b) :
    ∃ r, mulLimbs a b = some r ∧ r.length = a.length + b.length ∧ validLimbs r ∧
      limbsVal r = limbsVal a * limbsVal b := by
  have hr0valid : validLimbs (List.replicate (a.length + b.length) 0) := by
    intro x hx
    have := List.eq_of_mem_replicate hx
    rw [this]
    exact limbBase_pos
  have hr0len : (List.replicate (a.length + b.length) 0).length = a.length + b.length :=
    List.length_replicate _ _
  have hbound : limbsVal (List.replicate (a.length + b.length) 0) +
      limbsVal a * limbsVal b * limbBase ^ 0 <
      limbBase ^ (List.replicate (a.length + b.length) 0).length := by
    rw [limbsVal_replicate_zero, hr0len, pow_zero, Nat.zero_add, Nat.mul_one]
    calc limbsVal a * limbsVal b
        < limbBase ^ a.length * limbBase ^ b.length := by
          apply Nat.mul_lt_mul'' (limbsVal_lt a ha)
          · exact limbsVal_lt b hb
      _ = limbBase ^ (a.length + b.length) := (pow_add _ _ _).symm
  obtain ⟨r, heq, hlen, hval, hv⟩ := mulOuter_spec b hb a 0
    (List.replicate (a.length + b.length) 0) ha hr0valid
    (by rw [hr0len]; omega) hbound
  refine ⟨r, heq, by rw [hlen, hr0len], hval, ?_⟩
  rw [hv, limbsVal_replicate_zero, pow_zero, Nat.zero_add, Nat.mul_one]

/- ### Assembled parser facts -/

theorem initFromString_eq (s : List Char) :
    initFromString s =
      if firstIsDigit (stripSign s).2 then
        some ((stripSign s).1,
          ((stripSign s).2.takeWhile isDigitChar).foldl
            (fun a c => pushDecimalDigit a (digitVal c)) [],
          (stripSign s).2.dropWhile isDigitChar)
      else none := by
  unfold initFromString
  show (if firstIsDigit (stripSign s).2 = true then
    some ((stripSign s).1, parseDigits [] (stripSign s).2) else none) = _
  rw [parseDigits_eq (stripSign s).2 []]

theorem initFromString_of_stripSign (s : List Char) (sg : Bool) (t : List Char)
    (hst : stripSign s = (sg, t)) :
    initFromString s =
      if firstIsDigit t then
        some (sg, (t.takeWhile isDigitChar).foldl
          (fun a c => pushDecimalDigit a (digitVal c)) [], t.dropWhile isDigitChar)
      else none := by
  rw [initFromString_eq, hst]

theorem firstIsDigit_true_of_all (l : List Char) (hne : l ≠ [])
    (hd : ∀ c ∈ l, isDigitChar c = true) : firstIsDigit l = true := by
  cases l with
  | nil => exact absurd rfl hne
  | cons c t => exact hd c (List.mem_cons_self c t)

theorem takeWhile_eq_self_of_all (p : Char → Bool) (l : List Char)
    (h : ∀ x ∈ l, p x = true) : l.takeWhile p = l := by
  induction l with
  | nil => rfl
  | cons x xs ih =>
    rw [List.takeWhile_cons_of_pos (h x (List.mem_cons_self x xs))]
    rw [ih (fun y hy => h y (List.mem_cons_of_mem x hy))]

theorem opBool_true_ne_nil (s : List Nat) (h : opBool s = true) : s ≠ [] := by
  intro hc
  subst hc
  exact absurd h (by decide)

/-- Parsing a pure digit string: sign false, all digits consumed, value as expected. -/
theorem initFromString_digits (ds : List Char) (hne : ds ≠ [])
    (hd : ∀ c ∈ ds, isDigitChar c = true) :
    initFromString ds =
      some (false, ds.foldl (fun a c => pushDecimalDigit a (digitVal c)) [], []) ∧
    limbsVal (ds.foldl (fun a c => pushDecimalDigit a (digitVal c)) []) = natOfDigits ds ∧
    validLimbs (ds.foldl (fun a c => pushDecimalDigit a (digitVal c)) []) := by
  have hstrip := stripSign_digits ds hne hd
  obtain ⟨hval, hvalid, _⟩ := parseFold_spec ds []
    (fun x hx => by simp at hx) hd
  refine ⟨?_, ?_, hvalid⟩
  · rw [initFromString_of_stripSign ds false ds hstrip,
      if_pos (firstIsDigit_true_of_all ds hne hd),
      takeWhile_eq_self_of_all isDigitChar ds hd,
      List.dropWhile_eq_nil_iff.mpr (by intro x hx; exact hd x hx)]
  · rw [hval]
    unfold natOfDigits
    rw [natOfDigitsFrom_eq_foldl ds 0]
    rfl

/- ### Claims -/

/-- C7 counterexample: multiplyAdd on the two-limb value [5, 7] with base 0 and
addend 0 produces the zero-valued limb list [0, 0], not the single limb [0] — so a
zero result does not always materialize as exactly [0] as the claim states. -/
theorem claim7_counterexample :
    multiplyAdd [5, 7] 0 0 = [0, 0] ∧ limbsVal [0, 0] = 0 ∧ ([0, 0] : List Nat) ≠ [0] := by
  refine ⟨by decide, by decide, by decide⟩

/-- C7 (amended): multiplyAdd(base, addend) updates the limbs so that the value
becomes old * base + addend, the result is never the empty list, the carry limb is
appended exactly when the final carry is non-zero or the list was empty before, and
an empty input with zero addend materializes as exactly [0] (a multi-limb zero
input may keep several zero limbs). -/
theorem claim7_multiplyAdd (s : List Nat) (base c : Nat) (hs : validLimbs s)
    (hb : base < limbBase) (hc : c < limbBase) :
    limbsVal (multiplyAdd s base c) = limbsVal s * base + c ∧
    multiplyAdd s base c ≠ [] ∧
    ((multiplyAdd s base c).length = s.length + 1 ↔
      ((mulAddGo s base c).2 ≠ 0 ∨ s = [])) ∧
    (s = [] → c = 0 → multiplyAdd s base c = [0]) := by
  refine ⟨multiplyAdd_val s base c hs hb hc, multiplyAdd_ne_nil s base c,
    multiplyAdd_length_iff s base c, ?_⟩
  rintro rfl rfl
  rfl

/-- C7 witness: the amended theorem applied at s = [0], base = 10, addend = 3. -/
theorem claim7_witness :
    validLimbs [0] ∧ 10 < limbBase ∧ 3 < limbBase ∧
      (limbsVal (multiplyAdd [0] 10 3) = limbsVal [0] * 10 + 3 ∧
       multiplyAdd [0] 10 3 ≠ [] ∧
       ((multiplyAdd [0] 10 3).length = [0].length + 1 ↔
         ((mulAddGo [0] 10 3).2 ≠ 0 ∨ ([0] : List Nat) = [])) ∧
       (([0] : List Nat) = [] → 3 = 0 → multiplyAdd [0] 10 3 = [0])) :=
  ⟨by decide, by decide, by decide,
    claim7_multiplyAdd [0] 10 3 (by decide) (by decide) (by decide)⟩

/-- C3 counterexample: scalarDiv on the single limb [1] by 2 strips the zero
quotient down to the empty limb list, returning ([], remainder 1) rather than the
single limb [0] demanded by the claim. -/
theorem claim3_counterexample :
    scalarDiv [1] 2 = some ([], 1) ∧ ([] : List Nat) ≠ [0] := by
  refine ⟨by decide, by decide⟩

/-- C3 (amended): for a non-zero divisor, scalarDiv strips every trailing
(most-significant) zero limb from the quotient, down to the empty list when the
quotient value is zero; the quotient/remainder values are exact. -/
theorem claim3_scalarDiv_strips_to_empty (s : List Nat) (d : Nat) (hd : d ≠ 0)
    (hs : validLimbs s) :
    ∃ q r2, scalarDiv s d = some (q, r2) ∧ limbsVal q = limbsVal s / d ∧
      r2 = limbsVal s % d ∧ q.getLast? ≠ some 0 ∧ (limbsVal s / d = 0 → q = []) := by
  obtain ⟨h1, h2⟩ := scalarDivRun_spec s d hd hs
  refine ⟨(scalarDivRun s d).1, (scalarDivRun s d).2, ?_, h1, h2,
    scalarDivRun_getLast s d, ?_⟩
  · unfold scalarDiv
    rw [if_neg (by simp [hd])]
  · intro h0
    exact eq_nil_of_getLast_of_val_zero _ (scalarDivRun_getLast s d) (by rw [h1, h0])

/-- C3 witness: the amended theorem applied at limbs [1], divisor 2. -/
theorem claim3_witness :
    (2 : Nat) ≠ 0 ∧ validLimbs [1] ∧
      (∃ q r2, scalarDiv [1] 2 = some (q, r2) ∧ limbsVal q = limbsVal [1] / 2 ∧
        r2 = limbsVal [1] % 2 ∧ q.getLast? ≠ some 0 ∧ (limbsVal [1] / 2 = 0 → q = [])) :=
  ⟨by decide, by decide, claim3_scalarDiv_strips_to_empty [1] 2 (by decide) (by decide)⟩

/-- C8 counterexample: dividing the zero-valued BigInt with an empty limb vector by
the zero divisor raises nothing — the loop body never executes and scalarDiv
returns quotient [] and remainder 0, contradicting the claimed DivideByZero error;
with non-empty limbs the division is C++ undefined behaviour (modelled none),
which is not a distinguishable raised error condition either. -/
theorem claim8_counterexample :
    scalarDiv [] 0 = some ([], 0) ∧ scalarDiv [1] 0 = none := by
  refine ⟨by decide, by decide⟩

/-- C8 (amended): scalarDiv performs no divisor check.  With divisor zero it
silently returns ([], 0) on an empty limb vector and is undefined behaviour
otherwise; for every non-zero divisor it completes without any error and satisfies
the quotient-remainder law. -/
theorem claim8_scalarDiv_no_check (s : List Nat) (d : Nat) (hd : d ≠ 0)
    (hs : validLimbs s) :
    ∃ q r2, scalarDiv s d = some (q, r2) ∧ d * limbsVal q + r2 = limbsVal s ∧ r2 < d := by
  obtain ⟨h1, h2⟩ := scalarDivRun_spec s d hd hs
  refine ⟨(scalarDivRun s d).1, (scalarDivRun s d).2, ?_, ?_, ?_⟩
  · unfold scalarDiv
    rw [if_neg (by simp [hd])]
  · rw [h1, h2]
    exact Nat.div_add_mod _ _
  · rw [h2]
    exact Nat.mod_lt _ (Nat.pos_of_ne_zero hd)

/-- C8 witness: the amended theorem applied at limbs [7], divisor 3. -/
theorem claim8_witness :
    (3 : Nat) ≠ 0 ∧ validLimbs [7] ∧
      (∃ q r2, scalarDiv [7] 3 = some (q, r2) ∧ 3 * limbsVal q + r2 = limbsVal [7] ∧
        r2 < 3) :=
  ⟨by decide, by decide, claim8_scalarDiv_no_check [7] 3 (by decide) (by decide)⟩

/-- C4 counterexample: a zero-valued BigInt whose sign flag is set serializes to
"-0", not "0": writeString pushes the minus sign before any zero check. -/
theorem claim4_counterexample :
    writeString ⟨[0], true⟩ = ['-', '0'] ∧ (['-', '0'] : List Char) ≠ ['0'] := by
  have hdiv : scalarDivRun [0] 10 = ([], 0) := by decide
  have hser : serDigits [0] = ['0'] := by
    rw [serDigits_of_ne_nil [0] (by decide)]
    simp only [hdiv]
    rw [serDigits_nil]
    decide
  constructor
  · show (if (true : Bool) then ['-'] else []) ++
      (if ([0] : List Nat) = [] then ['0'] else (serDigits [0]).reverse) = ['-', '0']
    rw [hser]
    decide
  · decide

/-- C4 (amended): writeString emits the decimal digits of the value ("0" for a
zero value), prefixed by a minus sign exactly when the sign flag is set — also for
a zero value, so "-0" is produced when sign is true and the value is zero. -/
theorem claim4_writeString_sign (x : BigIntM) (hv : validLimbs x.sections) :
    writeString x = (if x.sign then ['-'] else []) ++ natToDigits (limbsVal x.sections) :=
  writeString_eq x hv

/-- C4 witness: the amended theorem applied to the sign-true zero BigInt. -/
theorem claim4_witness :
    validLimbs [0] ∧
      writeString ⟨[0], true⟩ =
        (if (⟨[0], true⟩ : BigIntM).sign then ['-'] else []) ++
          natToDigits (limbsVal (⟨[0], true⟩ : BigIntM).sections) :=
  ⟨by decide, claim4_writeString_sign ⟨[0], true⟩ (by decide)⟩

/-- C9: initFromString fails exactly when the first character after the optional
sign is not an ASCII digit (including the empty rest); on success it consumes the
maximal digit run, accumulating via pushDecimalDigit, and returns the trailing
non-digit characters unconsumed without error. -/
theorem claim9_parse_maximal (s : List Char) :
    (initFromString s = none ↔ firstIsDigit (stripSign s).2 = false) ∧
    (firstIsDigit (stripSign s).2 = true →
      initFromString s = some ((stripSign s).1,
        ((stripSign s).2.takeWhile isDigitChar).foldl
          (fun a c => pushDecimalDigit a (digitVal c)) [],
        (stripSign s).2.dropWhile isDigitChar)) := by
  constructor
  · by_cases h : firstIsDigit (stripSign s).2 = true
    · rw [initFromString_eq, if_pos h]
      simp [h]
    · have hf : firstIsDigit (stripSign s).2 = false := by
        simpa using h
      rw [initFromString_eq, if_neg h]
      simp [hf]
  · intro h
    rw [initFromString_eq, if_pos h]

/-- C9 witness: the theorem applied to "-12x": parsing succeeds with sign true,
value 12, and the unconsumed rest "x". -/
theorem claim9_witness :
    firstIsDigit (stripSign ['-', '1', '2', 'x']).2 = true ∧
      initFromString ['-', '1', '2', 'x'] = some (true, [12], ['x']) := by
  refine ⟨by decide, ?_⟩
  have h := (claim9_parse_maximal ['-', '1', '2', 'x']).2 (by decide)
  rw [h]
  decide

/-- C6: decimal round-trip.  Part 1: parsing the serialization of any non-negative
BigInt recovers its value (with sign false and the whole string consumed).
Part 2: for any valid decimal string (optional sign followed only by digits),
serializing the parsed BigInt yields the canonical form of the string. -/
theorem claim6_roundtrip :
    (∀ x : BigIntM, validLimbs x.sections → x.sign = false →
      ∃ l, initFromString (writeString x) = some (false, l, []) ∧
        limbsVal l = limbsVal x.sections) ∧
    (∀ s : List Char, (stripSign s).2 ≠ [] →
      (∀ c ∈ (stripSign s).2, isDigitChar c = true) →
      ∃ sg l, initFromString s = some (sg, l, []) ∧
        writeString ⟨l, sg⟩ = canonicalDecimal s) := by
  constructor
  · intro x hv hs
    have hws : writeString x = natToDigits (limbsVal x.sections) := by
      rw [writeString_eq x hv, hs]
      simp
    have hd : ∀ c ∈ natToDigits (limbsVal x.sections), isDigitChar c = true :=
      natToDigits_mem _
    have hne : natToDigits (limbsVal x.sections) ≠ [] := natToDigits_ne_nil _
    obtain ⟨hparse, hval, _⟩ := initFromString_digits (natToDigits (limbsVal x.sections)) hne hd
    refine ⟨(natToDigits (limbsVal x.sections)).foldl
      (fun a c => pushDecimalDigit a (digitVal c)) [], ?_, ?_⟩
    · rw [hws]
      exact hparse
    · rw [hval, natOfDigits_natToDigits]
  · intro s hne hd
    have heq := initFromString_of_stripSign s (stripSign s).1 (stripSign s).2 rfl
    rw [if_pos (firstIsDigit_true_of_all _ hne hd),
      takeWhile_eq_self_of_all isDigitChar _ hd,
      List.dropWhile_eq_nil_iff.mpr (by intro x hx; exact hd x hx)] at heq
    obtain ⟨hfval, hfvalid, _⟩ := parseFold_spec (stripSign s).2 []
      (fun x hx => by simp at hx) hd
    refine ⟨(stripSign s).1,
      (stripSign s).2.foldl (fun a c => pushDecimalDigit a (digitVal c)) [], heq, ?_⟩
    have hlv : limbsVal ((stripSign s).2.foldl
        (fun a c => pushDecimalDigit a (digitVal c)) []) = natOfDigits (stripSign s).2 := by
      rw [hfval]
      show List.foldl _ (limbsVal []) _ = _
      unfold natOfDigits
      rw [natOfDigitsFrom_eq_foldl]
      rfl
    rw [writeString_eq _ hfvalid]
    show (if (stripSign s).1 then ['-'] else []) ++
      natToDigits (limbsVal ((stripSign s).2.foldl
        (fun a c => pushDecimalDigit a (digitVal c)) [])) = canonicalDecimal s
    rw [hlv, natToDigits_natOfDigits (stripSign s).2 hne hd]
    rfl

/-- C6 witness: round trip of the BigInt with limbs [7], and canonicalization of
the string "07". -/
theorem claim6_witness :
    validLimbs [7] ∧
    (∃ l, initFromString (writeString ⟨[7], false⟩) = some (false, l, []) ∧
      limbsVal l = limbsVal (⟨[7], false⟩ : BigIntM).sections) ∧
    (∃ sg l, initFromString ['0', '7'] = some (sg, l, []) ∧
      writeString ⟨l, sg⟩ = canonicalDecimal ['0', '7']) :=
  ⟨by decide, claim6_roundtrip.1 ⟨[7], false⟩ (by decide) rfl,
    claim6_roundtrip.2 ['0', '7'] (by decide) (by decide)⟩

/-- C1 counterexample: for the same-sign, same-length, non-zero operands with
limbs [2, 1] and [1, 2] (values 2 + 2^32 and 1 + 2·2^32), the claimed
most-significant-first comparison gives -1 (the first operand is numerically
smaller), but BigInt::cmp walks the limbs least-significant first and returns 1. -/
theorem claim1_counterexample :
    BigIntM.cmp ⟨[2, 1], false⟩ ⟨[1, 2], false⟩ = 1 ∧
    specCmpMsbFirst false [2, 1] [1, 2] = -1 := by
  refine ⟨by decide, by decide⟩

/-- C1 (amended): for non-zero operands of equal sign and equal limb count, cmp
compares limbs from the LEAST-significant limb upward; the first unequal pair
(after a common strict-prefix of equal limbs) decides the result, inverted when
the shared sign is negative; equal limb lists give 0. -/
theorem claim1_cmp_lsb_first (x y : BigIntM) (hx : opBool x.sections = true)
    (hy : opBool y.sections = true) (hs : x.sign = y.sign)
    (hl : x.sections.length = y.sections.length) :
    (x.sections = y.sections → BigIntM.cmp x y = 0) ∧
    (∀ (p : List Nat) (xi yi : Nat) (ta tb : List Nat),
      x.sections = p ++ xi :: ta → y.sections = p ++ yi :: tb → xi ≠ yi →
      BigIntM.cmp x y =
        if xi < yi then (if x.sign then 1 else -1) else (if x.sign then -1 else 1)) := by
  rw [cmp_eq_cmpLoop x y hx hy hs hl]
  constructor
  · intro he
    rw [he]
    exact cmpLoop_self x.sign y.sections
  · intro p xi yi ta tb hxa hyb hne
    rw [hxa, hyb]
    exact cmpLoop_first_diff x.sign p xi yi ta tb hne

/-- C1 witness: the amended theorem applied to the operands of the counterexample,
with the first unequal pair at index 0. -/
theorem claim1_witness :
    opBool [2, 1] = true ∧ opBool [1, 2] = true ∧
      BigIntM.cmp ⟨[2, 1], false⟩ ⟨[1, 2], false⟩ = 1 := by
  refine ⟨by decide, by decide, ?_⟩
  have h := (claim1_cmp_lsb_first ⟨[2, 1], false⟩ ⟨[1, 2], false⟩ (by decide) (by decide)
    rfl rfl).2 [] 2 1 [1] [2] rfl rfl (by decide)
  simpa using h

/-- C2: evaluating operator* at the failing input: multiplying the non-zero
BigInt [5] by the zero BigInt [0] takes the zero path
`return sections.clear(), *this`, which clears the left operand's limb vector:
after the call the left operand is the empty-limbed zero, not [5] any more. -/
theorem claim2_mul_zero_clears_self :
    opMul ⟨[5], false⟩ ⟨[0], false⟩ = some (⟨[], false⟩, ⟨[], false⟩) ∧
    (⟨[], false⟩ : BigIntM) ≠ ⟨[5], false⟩ := by
  refine ⟨by decide, by decide⟩

/-- C5: BigInt × BigInt multiplication computes exact products: for non-negative
operands the limb value of the returned BigInt is the mathematical product of the
operand values (for any number of limbs, including the zero cases). -/
theorem claim5_mul_value (a b : BigIntM) (ha : validLimbs a.sections)
    (hb : validLimbs b.sections) (hsa : a.sign = false) (hsb : b.sign = false) :
    ∃ res post, opMul a b = some (res, post) ∧
      limbsVal res.sections = limbsVal a.sections * limbsVal b.sections := by
  unfold opMul
  by_cases h : opBool a.sections = false ∨ opBool b.sections = false
  · rw [if_pos h]
    refine ⟨⟨[], a.sign⟩, ⟨[], a.sign⟩, rfl, ?_⟩
    have hz : limbsVal a.sections * limbsVal b.sections = 0 := by
      rcases h with h | h
      · rw [opBool_false_val _ h, Nat.zero_mul]
      · rw [opBool_false_val _ h, Nat.mul_zero]
    rw [hz]
    rfl
  · rw [if_neg h]
    obtain ⟨r, heq, _, _, hv⟩ := mulLimbs_spec a.sections b.sections ha hb
    refine ⟨⟨r, false⟩, a, ?_, hv⟩
    rw [heq]
    rfl

/-- C5 witness: the theorem applied to 2 × 3. -/
theorem claim5_witness :
    validLimbs [2] ∧ validLimbs [3] ∧
      (∃ res post, opMul ⟨[2], false⟩ ⟨[3], false⟩ = some (res, post) ∧
        limbsVal res.sections =
          limbsVal (⟨[2], false⟩ : BigIntM).sections *
            limbsVal (⟨[3], false⟩ : BigIntM).sections) :=
  ⟨by decide, by decide,
    claim5_mul_value ⟨[2], false⟩ ⟨[3], false⟩ (by decide) (by decide) rfl rfl⟩

/-- C10: during schoolbook multiplication of non-empty operands with m and n limbs
the carry ripple always dies out strictly inside the pre-allocated m + n limbs:
the run returns some result (no out-of-bounds access of r.sections[k], which would
be none), and the result still has exactly m + n limbs, so the growth branch
guarded by `k > r.sections.size()` was never taken. -/
theorem claim10_ripple_in_bounds (a b : List Nat) (ha : validLimbs a)
    (hb : validLimbs b) (hane : a ≠ []) (hbne : b ≠ []) :
    ∃ r, mulLimbs a b = some r ∧ r.length = a.length + b.length := by
  obtain ⟨r, heq, hlen, _, _⟩ := mulLimbs_spec a b ha hb
  exact ⟨r, heq, hlen⟩

/-- C10 witness: the theorem applied to the single-limb operands [1] and [1]. -/
theorem claim10_witness :
    validLimbs [1] ∧ ([1] : List Nat) ≠ [] ∧
      (∃ r, mulLimbs [1] [1] = some r ∧ r.length = [1].length + [1].length) :=
  ⟨by decide, by decide,
    claim10_ripple_in_bounds [1] [1] (by decide) (by decide) (by decide) (by decide)⟩
